import Mathlib

/-
Verification of the analyzer-lsp provider framework against its design
specification.

The development embeds, as executable Lean definitions:

1. the dependency deduplicator and the provider-configuration normalizer
   (their implementations live in the provider package outside the vendored
   sources; only their tests are vendored, so both are modelled from the
   specification, sections 4.1 and 4.2);
2. the tree-sitter service client (service_client.go): the EvaluateQuery
   capability evaluator, its file walk, and the capability registry
   construction in GetGenericServiceClientCapabilities, translated from the
   vendored source.
-/

namespace AnalyzerLsp

/-! ## Dependency records (spec section 3)

Modelled from the spec: the provider package defines
`Dep {Name, Version, ResolvedIdentifier, Indirect}` and
`deduplicateDependencies : map[uri.URI][]*Dep -> map[uri.URI][]*Dep`;
the implementation is not among the vendored sources (only
provider_bugfix_test.go is), so the algorithm is taken from spec
section 4.1 word for word. -/

structure Dep where
  name : String
  version : String
  resolvedIdentifier : String
  indirect : Bool
  deriving DecidableEq, Repr

/-- Identity key for deduplication: concatenation of name, version and
resolved identifier (spec section 3). -/
def depId (d : Dep) : String :=
  d.name ++ d.version ++ d.resolvedIdentifier

/-- Association-list lookup keyed by strings, modelling a Go map read. -/
def lookupStr {α : Type} (k : String) : List (String × α) → Option α
  | [] => none
  | (a, v) :: rest => if a = k then some v else lookupStr k rest

/-- Modelled from the spec (section 4.1): the state of the per-file
deduplication loop: the output sequence plus the two lookup tables
`directIndexOf` and `indirectIndexOf`, both mapping an identity key to a
position in the output sequence for this file. -/
structure DedupState where
  out : List Dep
  directIdx : List (String × Nat)
  indirectIdx : List (String × Nat)

/-- Set `Indirect := false` on the record at position `i` (the in-place
mutation `deduped[uri][i].Indirect = false` of the upgrade step). -/
def upgradeAt : List Dep → Nat → List Dep
  | [], _ => []
  | d :: ds, 0 => { d with indirect := false } :: ds
  | d :: ds, i + 1 => d :: upgradeAt ds i

/-- Modelled from the spec (section 4.1): one iteration of the
deduplication loop over the next input record. -/
def dedupStep (st : DedupState) (d : Dep) : DedupState :=
  match lookupStr (depId d) st.directIdx with
  | some _ => st
  | none =>
    match lookupStr (depId d) st.indirectIdx with
    | some i =>
      if d.indirect then st
      else
        { out := upgradeAt st.out i
          directIdx := (depId d, i) :: st.directIdx
          indirectIdx := st.indirectIdx }
    | none =>
      if d.indirect then
        { out := st.out ++ [d]
          directIdx := st.directIdx
          indirectIdx := (depId d, st.out.length) :: st.indirectIdx }
      else
        { out := st.out ++ [d]
          directIdx := (depId d, st.out.length) :: st.directIdx
          indirectIdx := st.indirectIdx }

/-- The per-file loop over the input records in original order. -/
def dedupLoop (st : DedupState) : List Dep → DedupState
  | [] => st
  | d :: ds => dedupLoop (dedupStep st d) ds

/-- Modelled from the spec (section 4.1): deduplication of one file's
ordered sequence of dependency records. -/
def deduplicateDependenciesList (deps : List Dep) : List Dep :=
  (dedupLoop ⟨[], [], []⟩ deps).out

/-- Modelled from the spec (section 4.1): `deduplicateDependencies`
processes each file key independently. The per-file map is modelled as an
association list from file URI to dependency sequence. -/
def deduplicateDependencies (m : List (String × List Dep)) :
    List (String × List Dep) :=
  m.map (fun p => (p.1, deduplicateDependenciesList p.2))

/-! ### Specification-side vocabulary for the dedup claims -/

/-- The distinct identity keys of a dependency sequence, in order of first
appearance. -/
def distinctIds : List Dep → List String
  | [] => []
  | d :: ds => depId d :: (distinctIds ds).filter (fun k => k ≠ depId d)

/-- Position of the first occurrence of `k` in a list of identity keys. -/
def posOf (k : String) : List String → Nat
  | [] => 0
  | a :: rest => if a = k then 0 else posOf k rest + 1

/-- Number of records of a sequence carrying identity key `k`. -/
def countId (k : String) : List Dep → Nat
  | [] => 0
  | d :: ds => (if depId d = k then 1 else 0) + countId k ds

/-- Number of occurrences of `k` in a list of identity keys. -/
def countStr (k : String) : List String → Nat
  | [] => 0
  | s :: ss => (if s = k then 1 else 0) + countStr k ss

/-- Every occurrence of identity `k` in the sequence is indirect. -/
def allIndirect (k : String) (l : List Dep) : Prop :=
  ∀ d ∈ l, depId d = k → d.indirect = true

/-! ### Basic lemmas about the vocabulary -/

theorem mem_distinctIds {k : String} : ∀ {l : List Dep},
    k ∈ distinctIds l ↔ k ∈ l.map depId := by
  intro l
  induction l with
  | nil => simp [distinctIds]
  | cons d ds ih =>
    by_cases hk : k = depId d
    · subst hk; simp [distinctIds]
    · simp [distinctIds, List.mem_filter, hk, ih]

theorem distinctIds_nodup : ∀ (l : List Dep), (distinctIds l).Nodup := by
  intro l
  induction l with
  | nil => simp [distinctIds]
  | cons d ds ih =>
    rw [distinctIds, List.nodup_cons]
    constructor
    · intro hmem
      rcases List.mem_filter.mp hmem with ⟨-, hne⟩
      simp at hne
    · exact ih.filter _

theorem distinctIds_cons_append (e : Dep) (es l : List Dep) :
    distinctIds ((e :: es) ++ l) =
      depId e :: (distinctIds (es ++ l)).filter (fun k => k ≠ depId e) := rfl

theorem distinctIds_append_not_mem {l : List Dep} {d : Dep}
    (h : depId d ∉ distinctIds l) :
    distinctIds (l ++ [d]) = distinctIds l ++ [depId d] := by
  induction l with
  | nil => simp [distinctIds]
  | cons e es ih =>
    rw [distinctIds, List.mem_cons] at h
    push_neg at h
    obtain ⟨hne, hnm⟩ := h
    have hnm2 : depId d ∉ distinctIds es := by
      intro hc
      exact hnm (List.mem_filter.mpr ⟨hc, by simpa using hne⟩)
    rw [distinctIds_cons_append, ih hnm2, List.filter_append, distinctIds]
    simp [hne]

theorem distinctIds_append_mem {l : List Dep} {d : Dep}
    (h : depId d ∈ distinctIds l) :
    distinctIds (l ++ [d]) = distinctIds l := by
  induction l with
  | nil => simp [distinctIds] at h
  | cons e es ih =>
    rw [distinctIds] at h
    rcases List.mem_cons.mp h with h1 | h2
    · by_cases hmem : depId d ∈ distinctIds es
      · rw [distinctIds_cons_append, ih hmem, distinctIds]
      · rw [distinctIds_cons_append, distinctIds_append_not_mem hmem,
          List.filter_append, distinctIds]
        simp [h1]
    · rcases List.mem_filter.mp h2 with ⟨hmem, -⟩
      rw [distinctIds_cons_append, ih hmem, distinctIds]

theorem get?_posOf {k : String} : ∀ {L : List String}, k ∈ L →
    L.get? (posOf k L) = some k := by
  intro L
  induction L with
  | nil => intro h; cases h
  | cons a rest ih =>
    intro h
    by_cases ha : a = k
    · subst ha; simp [posOf]
    · rcases List.mem_cons.mp h with h1 | h2
      · exact absurd h1.symm ha
      · rw [posOf, if_neg ha]
        exact ih h2

theorem countStr_eq_zero {k : String} : ∀ {L : List String}, k ∉ L →
    countStr k L = 0 := by
  intro L
  induction L with
  | nil => intro _; rfl
  | cons a rest ih =>
    intro h
    rw [List.mem_cons] at h
    push_neg at h
    simp [countStr, Ne.symm h.1, ih h.2]

theorem countStr_eq_one {k : String} : ∀ {L : List String}, L.Nodup → k ∈ L →
    countStr k L = 1 := by
  intro L
  induction L with
  | nil => intro _ h; cases h
  | cons a rest ih =>
    intro hnd h
    rcases List.nodup_cons.mp hnd with ⟨hna, hnd2⟩
    by_cases ha : a = k
    · subst ha
      simp [countStr, countStr_eq_zero hna]
    · rcases List.mem_cons.mp h with h1 | h2
      · exact absurd h1.symm ha
      · simp [countStr, ha, ih hnd2 h2]

theorem countId_eq_countStr (k : String) : ∀ (l : List Dep),
    countId k l = countStr k (l.map depId) := by
  intro l
  induction l with
  | nil => rfl
  | cons d ds ih => simp [countId, countStr, ih]

theorem upgradeAt_map_depId : ∀ (l : List Dep) (i : Nat),
    (upgradeAt l i).map depId = l.map depId := by
  intro l
  induction l with
  | nil => intro i; rfl
  | cons d ds ih =>
    intro i
    cases i with
    | zero => simp [upgradeAt, depId]
    | succ j => simp [upgradeAt, ih j]

theorem upgradeAt_length : ∀ (l : List Dep) (i : Nat),
    (upgradeAt l i).length = l.length := by
  intro l
  induction l with
  | nil => intro i; rfl
  | cons d ds ih =>
    intro i
    cases i with
    | zero => simp [upgradeAt]
    | succ j => simp [upgradeAt, ih j]

theorem upgradeAt_get?_self : ∀ (l : List Dep) (i : Nat) (d : Dep),
    l.get? i = some d →
    (upgradeAt l i).get? i = some { d with indirect := false } := by
  intro l
  induction l with
  | nil => intro i d h; simp at h
  | cons e es ih =>
    intro i d h
    cases i with
    | zero => simp_all [upgradeAt]
    | succ j =>
      simp only [List.get?] at h
      simpa [upgradeAt] using ih j d h

theorem upgradeAt_get?_ne : ∀ (l : List Dep) (i j : Nat), j ≠ i →
    (upgradeAt l i).get? j = l.get? j := by
  intro l
  induction l with
  | nil => intro i j _; rfl
  | cons e es ih =>
    intro i j hne
    cases i with
    | zero =>
      cases j with
      | zero => exact absurd rfl hne
      | succ j2 => simp [upgradeAt]
    | succ i2 =>
      cases j with
      | zero => simp [upgradeAt]
      | succ j2 =>
        have : j2 ≠ i2 := fun h => hne (by rw [h])
        simpa [upgradeAt] using ih i2 j2 this

theorem nodup_get?_unique {L : List String} (hnd : L.Nodup) {i j : Nat}
    {k : String} (hi : L.get? i = some k) (hj : L.get? j = some k) : i = j := by
  induction L generalizing i j with
  | nil => simp at hi
  | cons a rest ih =>
    rcases List.nodup_cons.mp hnd with ⟨hna, hnd2⟩
    cases i with
    | zero =>
      cases j with
      | zero => rfl
      | succ j2 =>
        simp only [List.get?] at hi hj
        cases hi
        exact absurd (List.get?_mem hj) hna
    | succ i2 =>
      cases j with
      | zero =>
        simp only [List.get?] at hi hj
        cases hj
        exact absurd (List.get?_mem hi) hna
      | succ j2 =>
        simp only [List.get?] at hi hj
        rw [ih hnd2 hi hj]

theorem get?_some_lt {α : Type} : ∀ {l : List α} {i : Nat} {x : α},
    l.get? i = some x → i < l.length := by
  intro l
  induction l with
  | nil => intro i x h; simp at h
  | cons a rest ih =>
    intro i x h
    cases i with
    | zero => simp
    | succ j =>
      simp only [List.get?] at h
      have := ih h
      simp only [List.length_cons]
      omega

theorem get?_append_left {α : Type} : ∀ {l l2 : List α} {i : Nat},
    i < l.length → (l ++ l2).get? i = l.get? i := by
  intro l
  induction l with
  | nil => intro l2 i h; simp at h
  | cons a rest ih =>
    intro l2 i h
    cases i with
    | zero => rfl
    | succ j =>
      have : j < rest.length := by simp [List.length] at h; omega
      exact ih this

theorem get?_append_singleton_length {α : Type} : ∀ (l : List α) (d : α),
    (l ++ [d]).get? l.length = some d := by
  intro l
  induction l with
  | nil => intro d; rfl
  | cons a rest ih => intro d; exact ih d

theorem get?_append_singleton_cases {α : Type} : ∀ {l : List α} {d e : α}
    {i : Nat}, (l ++ [d]).get? i = some e →
    l.get? i = some e ∨ (i = l.length ∧ e = d) := by
  intro l
  induction l with
  | nil =>
    intro d e i h
    cases i with
    | zero => simp_all
    | succ j => simp [List.get?] at h
  | cons a rest ih =>
    intro d e i h
    cases i with
    | zero => simp_all
    | succ j =>
      simp only [List.cons_append, List.get?] at h
      rcases ih h with h1 | ⟨h2, h3⟩
      · exact Or.inl h1
      · exact Or.inr ⟨by simp [List.length, h2], h3⟩

theorem map_depId_get? : ∀ (l : List Dep) (i : Nat),
    (l.map depId).get? i = (l.get? i).map depId := by
  intro l
  induction l with
  | nil => intro i; rfl
  | cons d ds ih =>
    intro i
    cases i with
    | zero => rfl
    | succ j => exact ih j

theorem depId_upgrade (d : Dep) (b : Bool) :
    depId { d with indirect := b } = depId d := rfl

theorem allIndirect_append_of_ne {k : String} {d : Dep} {p : List Dep}
    (hne : depId d ≠ k) : allIndirect k (p ++ [d]) ↔ allIndirect k p := by
  constructor
  · intro h e he hid
    exact h e (List.mem_append_left _ he) hid
  · intro h e he hid
    rcases List.mem_append.mp he with h1 | h2
    · exact h e h1 hid
    · rw [List.mem_singleton] at h2
      subst h2
      exact absurd hid hne

theorem allIndirect_append_of_indirect {k : String} {d : Dep} {p : List Dep}
    (hdi : d.indirect = true) :
    allIndirect k (p ++ [d]) ↔ allIndirect k p := by
  constructor
  · intro h e he hid
    exact h e (List.mem_append_left _ he) hid
  · intro h e he hid
    rcases List.mem_append.mp he with h1 | h2
    · exact h e h1 hid
    · rw [List.mem_singleton] at h2
      subst h2
      exact hdi

theorem allIndirect_of_not_seen {k : String} {p : List Dep}
    (h : k ∉ p.map depId) : allIndirect k p := by
  intro e he hid
  exact absurd (hid ▸ List.mem_map_of_mem depId he) h

theorem not_allIndirect {k : String} {d0 : Dep} {p : List Dep}
    (hm : d0 ∈ p) (hid : depId d0 = k) (hd : d0.indirect = false) :
    ¬ allIndirect k p := by
  intro hall
  have := hall d0 hm hid
  rw [hd] at this
  cases this

theorem exists_direct_append_of_indirect {k : String} {d : Dep} {p : List Dep}
    (hdi : d.indirect = true) :
    (∃ e, e ∈ p ++ [d] ∧ depId e = k ∧ e.indirect = false) ↔
    (∃ e, e ∈ p ∧ depId e = k ∧ e.indirect = false) := by
  constructor
  · rintro ⟨e, he, hid, hdir⟩
    rcases List.mem_append.mp he with h1 | h2
    · exact ⟨e, h1, hid, hdir⟩
    · rw [List.mem_singleton] at h2
      subst h2
      rw [hdi] at hdir
      cases hdir
  · rintro ⟨e, he, hid, hdir⟩
    exact ⟨e, List.mem_append_left _ he, hid, hdir⟩

theorem mem_map_depId_append_left {k : String} {p : List Dep} (d : Dep)
    (h : k ∈ p.map depId) : k ∈ (p ++ [d]).map depId := by
  rw [List.map_append]
  exact List.mem_append_left _ h

theorem mem_map_depId_append_cases {k : String} {p : List Dep} {d : Dep}
    (h : k ∈ (p ++ [d]).map depId) : k ∈ p.map depId ∨ k = depId d := by
  rw [List.map_append] at h
  rcases List.mem_append.mp h with h1 | h2
  · exact Or.inl h1
  · simp at h2
    exact Or.inr h2

/-- Loop invariant of the deduplication algorithm: after the loop has
consumed the prefix `p` of the input sequence, the state `st` satisfies
these properties, phrased in the specification vocabulary. -/
structure DedupInv (p : List Dep) (st : DedupState) : Prop where
  ids : st.out.map depId = distinctIds p
  flags : ∀ i d, st.out.get? i = some d →
    (d.indirect = true ↔ allIndirect (depId d) p)
  direct_iff : ∀ k, (∃ i, lookupStr k st.directIdx = some i) ↔
    (∃ e, e ∈ p ∧ depId e = k ∧ e.indirect = false)
  direct_pos : ∀ k i, lookupStr k st.directIdx = some i →
    (st.out.map depId).get? i = some k
  indirect_pos : ∀ k i, lookupStr k st.indirectIdx = some i →
    (st.out.map depId).get? i = some k
  indirect_seen : ∀ k i, lookupStr k st.indirectIdx = some i →
    k ∈ p.map depId
  seen_tables : ∀ k, k ∈ p.map depId →
    (∃ i, lookupStr k st.directIdx = some i) ∨
    (∃ i, lookupStr k st.indirectIdx = some i)

theorem dedupInv_skip_direct {p : List Dep} {st : DedupState} {d : Dep}
    {i : Nat} (h : DedupInv p st)
    (hdir : lookupStr (depId d) st.directIdx = some i) :
    DedupInv (p ++ [d]) st := by
  obtain ⟨d0, hd0m, hd0id, hd0dir⟩ := (h.direct_iff (depId d)).mp ⟨i, hdir⟩
  have hseen : depId d ∈ p.map depId :=
    hd0id ▸ List.mem_map_of_mem depId hd0m
  have hdistinct : distinctIds (p ++ [d]) = distinctIds p :=
    distinctIds_append_mem (mem_distinctIds.mpr hseen)
  refine ⟨?_, ?_, ?_, h.direct_pos, h.indirect_pos, ?_, ?_⟩
  · rw [hdistinct]
    exact h.ids
  · intro i' d' hget
    have old := h.flags i' d' hget
    by_cases hk : depId d = depId d'
    · have hnall : ¬ allIndirect (depId d') p :=
        not_allIndirect hd0m (hd0id.trans hk) hd0dir
      have hfalse : d'.indirect = false := by
        cases hb : d'.indirect
        · rfl
        · exact absurd (old.mp hb) hnall
      have hnall2 : ¬ allIndirect (depId d') (p ++ [d]) := by
        intro hall
        exact hnall (fun e he hid => hall e (List.mem_append_left _ he) hid)
      rw [hfalse]
      exact iff_of_false (by simp) hnall2
    · rw [allIndirect_append_of_ne hk]
      exact old
  · intro k
    constructor
    · intro hl
      obtain ⟨e, he, hid, hdir0⟩ := (h.direct_iff k).mp hl
      exact ⟨e, List.mem_append_left _ he, hid, hdir0⟩
    · rintro ⟨e, he, hid, hdir0⟩
      rcases List.mem_append.mp he with h1 | h2
      · exact (h.direct_iff k).mpr ⟨e, h1, hid, hdir0⟩
      · rw [List.mem_singleton] at h2
        subst h2
        exact (h.direct_iff k).mpr ⟨d0, hd0m, hd0id.trans hid, hd0dir⟩
  · intro k j hl
    exact mem_map_depId_append_left d (h.indirect_seen k j hl)
  · intro k hk
    rcases mem_map_depId_append_cases hk with h1 | h2
    · exact h.seen_tables k h1
    · subst h2
      exact Or.inl ⟨i, hdir⟩

theorem dedupInv_skip_indirect {p : List Dep} {st : DedupState} {d : Dep}
    {i : Nat} (h : DedupInv p st)
    (hind : lookupStr (depId d) st.indirectIdx = some i)
    (hdi : d.indirect = true) :
    DedupInv (p ++ [d]) st := by
  have hseen : depId d ∈ p.map depId := h.indirect_seen _ _ hind
  have hdistinct : distinctIds (p ++ [d]) = distinctIds p :=
    distinctIds_append_mem (mem_distinctIds.mpr hseen)
  refine ⟨?_, ?_, ?_, h.direct_pos, h.indirect_pos, ?_, ?_⟩
  · rw [hdistinct]
    exact h.ids
  · intro i' d' hget
    rw [allIndirect_append_of_indirect hdi]
    exact h.flags i' d' hget
  · intro k
    rw [exists_direct_append_of_indirect hdi]
    exact h.direct_iff k
  · intro k j hl
    exact mem_map_depId_append_left d (h.indirect_seen k j hl)
  · intro k hk
    rcases mem_map_depId_append_cases hk with h1 | h2
    · exact h.seen_tables k h1
    · subst h2
      exact Or.inr ⟨i, hind⟩

theorem dedupInv_upgrade {p : List Dep} {st : DedupState} {d : Dep}
    {i : Nat} (h : DedupInv p st)
    (hind : lookupStr (depId d) st.indirectIdx = some i)
    (hdi : d.indirect = false) :
    DedupInv (p ++ [d])
      ⟨upgradeAt st.out i, (depId d, i) :: st.directIdx, st.indirectIdx⟩ := by
  have hseen : depId d ∈ p.map depId := h.indirect_seen _ _ hind
  have hdistinct : distinctIds (p ++ [d]) = distinctIds p :=
    distinctIds_append_mem (mem_distinctIds.mpr hseen)
  have hposk : (st.out.map depId).get? i = some (depId d) :=
    h.indirect_pos _ _ hind
  have hnodup : (st.out.map depId).Nodup := by
    rw [h.ids]
    exact distinctIds_nodup p
  have hd0 : ∃ d0, st.out.get? i = some d0 ∧ depId d0 = depId d := by
    rw [map_depId_get?] at hposk
    cases hg : st.out.get? i with
    | none =>
      rw [hg] at hposk
      cases hposk
    | some d0 =>
      rw [hg] at hposk
      exact ⟨d0, rfl, Option.some.inj hposk⟩
  obtain ⟨d0, hg0, hid0⟩ := hd0
  refine ⟨?_, ?_, ?_, ?_, ?_, ?_, ?_⟩
  · show (upgradeAt st.out i).map depId = distinctIds (p ++ [d])
    rw [hdistinct, upgradeAt_map_depId]
    exact h.ids
  · intro i' d' hget
    by_cases hii : i' = i
    · subst hii
      have hsame := upgradeAt_get?_self st.out i' d0 hg0
      rw [hget] at hsame
      have hd' : d' = { d0 with indirect := false } :=
        Option.some.inj hsame
      have hnall : ¬ allIndirect (depId d') (p ++ [d]) := by
        rw [hd', depId_upgrade, hid0]
        exact not_allIndirect
          (List.mem_append_right _ (List.mem_singleton_self d)) rfl hdi
      have hfl : d'.indirect = false := by rw [hd']
      rw [hfl]
      exact iff_of_false (by simp) hnall
    · have hget_old : st.out.get? i' = some d' := by
        rw [← upgradeAt_get?_ne st.out i i' hii]
        exact hget
      have old := h.flags i' d' hget_old
      have hne : depId d ≠ depId d' := by
        intro hcontra
        apply hii
        have h1 : (st.out.map depId).get? i' = some (depId d') := by
          rw [map_depId_get?, hget_old]
          rfl
        exact nodup_get?_unique hnodup h1 (hcontra ▸ hposk)
      rw [allIndirect_append_of_ne hne]
      exact old
  · intro k
    by_cases hk : depId d = k
    · subst hk
      constructor
      · intro _
        exact ⟨d, List.mem_append_right _ (List.mem_singleton_self d),
          rfl, hdi⟩
      · intro _
        exact ⟨i, by simp [lookupStr]⟩
    · constructor
      · rintro ⟨j, hj⟩
        rw [lookupStr, if_neg hk] at hj
        obtain ⟨e, he, hid, hdir0⟩ := (h.direct_iff k).mp ⟨j, hj⟩
        exact ⟨e, List.mem_append_left _ he, hid, hdir0⟩
      · rintro ⟨e, he, hid, hdir0⟩
        rcases List.mem_append.mp he with h1 | h2
        · obtain ⟨j, hj⟩ := (h.direct_iff k).mpr ⟨e, h1, hid, hdir0⟩
          exact ⟨j, by rw [lookupStr, if_neg hk]; exact hj⟩
        · rw [List.mem_singleton] at h2
          subst h2
          exact absurd hid hk
  · intro k j hl
    rw [lookupStr] at hl
    by_cases hk : depId d = k
    · rw [if_pos hk] at hl
      cases hl
      show ((upgradeAt st.out i).map depId).get? i = some k
      rw [upgradeAt_map_depId]
      exact hk ▸ hposk
    · rw [if_neg hk] at hl
      show ((upgradeAt st.out i).map depId).get? j = some k
      rw [upgradeAt_map_depId]
      exact h.direct_pos k j hl
  · intro k j hl
    show ((upgradeAt st.out i).map depId).get? j = some k
    rw [upgradeAt_map_depId]
    exact h.indirect_pos k j hl
  · intro k j hl
    exact mem_map_depId_append_left d (h.indirect_seen k j hl)
  · intro k hk
    rcases mem_map_depId_append_cases hk with h1 | h2
    · rcases h.seen_tables k h1 with ⟨j, hj⟩ | ⟨j, hj⟩
      · left
        by_cases hk2 : depId d = k
        · exact ⟨i, by rw [lookupStr, if_pos hk2]⟩
        · exact ⟨j, by rw [lookupStr, if_neg hk2]; exact hj⟩
      · right
        exact ⟨j, hj⟩
    · subst h2
      left
      exact ⟨i, by simp [lookupStr]⟩

theorem dedupInv_append_flags_new {p : List Dep} {d : Dep}
    (hnotseen : depId d ∉ p.map depId) :
    (d.indirect = true ↔ allIndirect (depId d) (p ++ [d])) := by
  constructor
  · intro htrue e he hid
    rcases List.mem_append.mp he with hm1 | hm2
    · exact absurd (hid ▸ List.mem_map_of_mem depId hm1) hnotseen
    · rw [List.mem_singleton] at hm2
      subst hm2
      exact htrue
  · intro hall
    exact hall d (List.mem_append_right _ (List.mem_singleton_self d)) rfl

theorem dedupInv_append_flags_old {p : List Dep} {st : DedupState} {d : Dep}
    (h : DedupInv p st) (hnotseen : depId d ∉ p.map depId)
    {i' : Nat} {d' : Dep} (hget : (st.out ++ [d]).get? i' = some d') :
    (d'.indirect = true ↔ allIndirect (depId d') (p ++ [d])) := by
  have hnotdistinct : depId d ∉ distinctIds p := fun hc =>
    hnotseen (mem_distinctIds.mp hc)
  rcases get?_append_singleton_cases hget with h1 | ⟨h2, h3⟩
  · have old := h.flags i' d' h1
    have hgm : (st.out.map depId).get? i' = some (depId d') := by
      rw [map_depId_get?, h1]
      rfl
    have hmem : depId d' ∈ distinctIds p := h.ids ▸ List.get?_mem hgm
    have hne : depId d ≠ depId d' := fun hc => hnotdistinct (hc ▸ hmem)
    rw [allIndirect_append_of_ne hne]
    exact old
  · subst h3
    exact dedupInv_append_flags_new hnotseen

theorem dedupInv_append_direct {p : List Dep} {st : DedupState} {d : Dep}
    (h : DedupInv p st)
    (hdir : lookupStr (depId d) st.directIdx = none)
    (hind : lookupStr (depId d) st.indirectIdx = none)
    (hdi : d.indirect = false) :
    DedupInv (p ++ [d])
      ⟨st.out ++ [d], (depId d, st.out.length) :: st.directIdx,
        st.indirectIdx⟩ := by
  have hnotseen : depId d ∉ p.map depId := by
    intro hc
    rcases h.seen_tables _ hc with ⟨j, hj⟩ | ⟨j, hj⟩
    · rw [hdir] at hj
      cases hj
    · rw [hind] at hj
      cases hj
  have hnotdistinct : depId d ∉ distinctIds p := fun hc =>
    hnotseen (mem_distinctIds.mp hc)
  refine ⟨?_, ?_, ?_, ?_, ?_, ?_, ?_⟩
  · show (st.out ++ [d]).map depId = distinctIds (p ++ [d])
    rw [List.map_append, distinctIds_append_not_mem hnotdistinct, h.ids]
    rfl
  · intro i' d' hget
    exact dedupInv_append_flags_old h hnotseen hget
  · intro k
    by_cases hk : depId d = k
    · subst hk
      constructor
      · intro _
        exact ⟨d, List.mem_append_right _ (List.mem_singleton_self d),
          rfl, hdi⟩
      · intro _
        exact ⟨st.out.length, by simp [lookupStr]⟩
    · constructor
      · rintro ⟨j, hj⟩
        rw [lookupStr, if_neg hk] at hj
        obtain ⟨e, he, hid, hdir0⟩ := (h.direct_iff k).mp ⟨j, hj⟩
        exact ⟨e, List.mem_append_left _ he, hid, hdir0⟩
      · rintro ⟨e, he, hid, hdir0⟩
        rcases List.mem_append.mp he with h1 | h2
        · obtain ⟨j, hj⟩ := (h.direct_iff k).mpr ⟨e, h1, hid, hdir0⟩
          exact ⟨j, by rw [lookupStr, if_neg hk]; exact hj⟩
        · rw [List.mem_singleton] at h2
          subst h2
          exact absurd hid hk
  · intro k j hl
    rw [lookupStr] at hl
    by_cases hk : depId d = k
    · rw [if_pos hk] at hl
      cases hl
      show ((st.out ++ [d]).map depId).get? st.out.length = some k
      have hlen : (st.out.map depId).length = st.out.length :=
        List.length_map _ _
      rw [List.map_append, ← hlen, ← hk]
      exact get?_append_singleton_length (st.out.map depId) (depId d)
    · rw [if_neg hk] at hl
      have old := h.direct_pos k j hl
      have hlt : j < (st.out.map depId).length := get?_some_lt old
      show ((st.out ++ [d]).map depId).get? j = some k
      rw [List.map_append, get?_append_left hlt]
      exact old
  · intro k j hl
    have old := h.indirect_pos k j hl
    have hlt : j < (st.out.map depId).length := get?_some_lt old
    show ((st.out ++ [d]).map depId).get? j = some k
    rw [List.map_append, get?_append_left hlt]
    exact old
  · intro k j hl
    exact mem_map_depId_append_left d (h.indirect_seen k j hl)
  · intro k hk
    rcases mem_map_depId_append_cases hk with h1 | h2
    · have hkne : depId d ≠ k := fun hc => hnotseen (hc ▸ h1)
      rcases h.seen_tables k h1 with ⟨j, hj⟩ | ⟨j, hj⟩
      · left
        exact ⟨j, by rw [lookupStr, if_neg hkne]; exact hj⟩
      · right
        exact ⟨j, hj⟩
    · subst h2
      left
      exact ⟨st.out.length, by simp [lookupStr]⟩

theorem dedupInv_append_indirect {p : List Dep} {st : DedupState} {d : Dep}
    (h : DedupInv p st)
    (hdir : lookupStr (depId d) st.directIdx = none)
    (hind : lookupStr (depId d) st.indirectIdx = none)
    (hdi : d.indirect = true) :
    DedupInv (p ++ [d])
      ⟨st.out ++ [d], st.directIdx,
        (depId d, st.out.length) :: st.indirectIdx⟩ := by
  have hnotseen : depId d ∉ p.map depId := by
    intro hc
    rcases h.seen_tables _ hc with ⟨j, hj⟩ | ⟨j, hj⟩
    · rw [hdir] at hj
      cases hj
    · rw [hind] at hj
      cases hj
  have hnotdistinct : depId d ∉ distinctIds p := fun hc =>
    hnotseen (mem_distinctIds.mp hc)
  refine ⟨?_, ?_, ?_, ?_, ?_, ?_, ?_⟩
  · show (st.out ++ [d]).map depId = distinctIds (p ++ [d])
    rw [List.map_append, distinctIds_append_not_mem hnotdistinct, h.ids]
    rfl
  · intro i' d' hget
    exact dedupInv_append_flags_old h hnotseen hget
  · intro k
    rw [exists_direct_append_of_indirect hdi]
    exact h.direct_iff k
  · intro k j hl
    have old := h.direct_pos k j hl
    have hlt : j < (st.out.map depId).length := get?_some_lt old
    show ((st.out ++ [d]).map depId).get? j = some k
    rw [List.map_append, get?_append_left hlt]
    exact old
  · intro k j hl
    rw [lookupStr] at hl
    by_cases hk : depId d = k
    · rw [if_pos hk] at hl
      cases hl
      show ((st.out ++ [d]).map depId).get? st.out.length = some k
      have hlen : (st.out.map depId).length = st.out.length :=
        List.length_map _ _
      rw [List.map_append, ← hlen, ← hk]
      exact get?_append_singleton_length (st.out.map depId) (depId d)
    · rw [if_neg hk] at hl
      have old := h.indirect_pos k j hl
      have hlt : j < (st.out.map depId).length := get?_some_lt old
      show ((st.out ++ [d]).map depId).get? j = some k
      rw [List.map_append, get?_append_left hlt]
      exact old
  · intro k j hl
    rw [lookupStr] at hl
    by_cases hk : depId d = k
    · subst hk
      rw [List.map_append]
      exact List.mem_append_right _ (by simp)
    · rw [if_neg hk] at hl
      exact mem_map_depId_append_left d (h.indirect_seen k j hl)
  · intro k hk
    rcases mem_map_depId_append_cases hk with h1 | h2
    · have hkne : depId d ≠ k := fun hc => hnotseen (hc ▸ h1)
      rcases h.seen_tables k h1 with ⟨j, hj⟩ | ⟨j, hj⟩
      · left
        exact ⟨j, hj⟩
      · right
        exact ⟨j, by rw [lookupStr, if_neg hkne]; exact hj⟩
    · subst h2
      right
      exact ⟨st.out.length, by simp [lookupStr]⟩

theorem dedupStep_inv {p : List Dep} {st : DedupState} (d : Dep)
    (h : DedupInv p st) : DedupInv (p ++ [d]) (dedupStep st d) := by
  unfold dedupStep
  cases hdir : lookupStr (depId d) st.directIdx with
  | some i => exact dedupInv_skip_direct h hdir
  | none =>
    cases hind : lookupStr (depId d) st.indirectIdx with
    | some i =>
      cases hdi : d.indirect with
      | true => simpa using dedupInv_skip_indirect h hind hdi
      | false => simpa using dedupInv_upgrade h hind hdi
    | none =>
      cases hdi : d.indirect with
      | true => simpa using dedupInv_append_indirect h hdir hind hdi
      | false => simpa using dedupInv_append_direct h hdir hind hdi

theorem dedupLoop_inv : ∀ (l p : List Dep) (st : DedupState),
    DedupInv p st → DedupInv (p ++ l) (dedupLoop st l) := by
  intro l
  induction l with
  | nil =>
    intro p st h
    simpa [dedupLoop] using h
  | cons d ds ih =>
    intro p st h
    have h2 := ih (p ++ [d]) (dedupStep st d) (dedupStep_inv d h)
    simpa [dedupLoop] using h2

theorem dedupInv_init : DedupInv [] ⟨[], [], []⟩ := by
  refine ⟨rfl, ?_, ?_, ?_, ?_, ?_, ?_⟩
  · intro i d hget
    cases i <;> cases hget
  · intro k
    constructor
    · rintro ⟨j, hj⟩
      cases hj
    · rintro ⟨e, he, -, -⟩
      cases he
  · intro k j hl
    cases hl
  · intro k j hl
    cases hl
  · intro k j hl
    cases hl
  · intro k hk
    cases hk

theorem dedupList_inv (deps : List Dep) :
    DedupInv deps (dedupLoop ⟨[], [], []⟩ deps) := by
  simpa using dedupLoop_inv deps [] ⟨[], [], []⟩ dedupInv_init

theorem dedupList_map_depId (deps : List Dep) :
    (deduplicateDependenciesList deps).map depId = distinctIds deps :=
  (dedupList_inv deps).ids

theorem dedupList_direct (deps : List Dep) (k : String)
    (hdir : ∃ e, e ∈ deps ∧ depId e = k ∧ e.indirect = false) :
    countId k (deduplicateDependenciesList deps) = 1 ∧
    ∃ entry,
      (deduplicateDependenciesList deps).get?
        (posOf k (distinctIds deps)) = some entry ∧
      depId entry = k ∧ entry.indirect = false := by
  obtain ⟨e, he, hid, hedir⟩ := hdir
  have inv := dedupList_inv deps
  have hids : (deduplicateDependenciesList deps).map depId =
      distinctIds deps := inv.ids
  have hkmem : k ∈ deps.map depId := hid ▸ List.mem_map_of_mem depId he
  have hkdis : k ∈ distinctIds deps := mem_distinctIds.mpr hkmem
  constructor
  · rw [countId_eq_countStr, hids]
    exact countStr_eq_one (distinctIds_nodup deps) hkdis
  · have hg : ((deduplicateDependenciesList deps).map depId).get?
        (posOf k (distinctIds deps)) = some k := by
      rw [hids]
      exact get?_posOf hkdis
    rw [map_depId_get?] at hg
    cases hge : (deduplicateDependenciesList deps).get?
        (posOf k (distinctIds deps)) with
    | none =>
      rw [hge] at hg
      cases hg
    | some entry =>
      rw [hge] at hg
      have hide : depId entry = k := Option.some.inj hg
      refine ⟨entry, rfl, hide, ?_⟩
      have hfl := inv.flags _ _ hge
      have hnall : ¬ allIndirect (depId entry) deps := by
        rw [hide]
        exact not_allIndirect he hid hedir
      cases hb : entry.indirect
      · rfl
      · exact absurd (hfl.mp hb) hnall

theorem lookupStr_dedup : ∀ (m : List (String × List Dep)) (f : String)
    (deps : List Dep), lookupStr f m = some deps →
    lookupStr f (deduplicateDependencies m) =
      some (deduplicateDependenciesList deps) := by
  intro m
  induction m with
  | nil =>
    intro f deps h
    cases h
  | cons q rest ih =>
    intro f deps h
    obtain ⟨a, v⟩ := q
    by_cases ha : a = f
    · rw [lookupStr, if_pos ha] at h
      have hv : v = deps := Option.some.inj h
      subst hv
      simp [deduplicateDependencies, lookupStr, ha]
    · rw [lookupStr, if_neg ha] at h
      have := ih f deps h
      simpa [deduplicateDependencies, lookupStr, ha] using this

/-- C1: for every input map of per-file dependency sequences and every
identity key that occurs in the sequence of some file with at least one
direct occurrence, the deduplicated output for that file contains exactly
one record with that identity key, that record is direct, and it sits at
the index of the identity's first occurrence among distinct identities in
the input order. -/
theorem dedup_direct_identity
    (m : List (String × List Dep)) (f : String) (deps : List Dep)
    (k : String)
    (hf : lookupStr f m = some deps)
    (hdir : ∃ e, e ∈ deps ∧ depId e = k ∧ e.indirect = false) :
    ∃ out, lookupStr f (deduplicateDependencies m) = some out ∧
      countId k out = 1 ∧
      ∃ entry, out.get? (posOf k (distinctIds deps)) = some entry ∧
        depId entry = k ∧ entry.indirect = false := by
  obtain ⟨h1, h2⟩ := dedupList_direct deps k hdir
  exact ⟨deduplicateDependenciesList deps, lookupStr_dedup m f deps hf,
    h1, h2⟩

def testDeps : List Dep :=
  [{ name := "libA", version := "1.0", resolvedIdentifier := "",
     indirect := false },
   { name := "libB", version := "2.0", resolvedIdentifier := "",
     indirect := true },
   { name := "libC", version := "3.0", resolvedIdentifier := "",
     indirect := false },
   { name := "libB", version := "2.0", resolvedIdentifier := "",
     indirect := false }]

def testDepMap : List (String × List Dep) :=
  [("file:///test/pom.xml", testDeps)]

/-- Witness for C1 at the input of
TestDeduplicateDependencies_UpgradeIndirectToDirect: the identity key of
libB has a direct occurrence, and the output keeps exactly one libB
record, direct, at index 1. -/
theorem dedup_direct_identity_witness :
    lookupStr "file:///test/pom.xml" testDepMap = some testDeps ∧
    (∃ e, e ∈ testDeps ∧ depId e = "libB2.0" ∧ e.indirect = false) ∧
    ∃ out,
      lookupStr "file:///test/pom.xml" (deduplicateDependencies testDepMap) =
        some out ∧
      countId "libB2.0" out = 1 ∧
      ∃ entry, out.get? (posOf "libB2.0" (distinctIds testDeps)) =
          some entry ∧
        depId entry = "libB2.0" ∧ entry.indirect = false :=
  ⟨by decide, by decide,
    dedup_direct_identity testDepMap "file:///test/pom.xml" testDeps
      "libB2.0" (by decide) (by decide)⟩

theorem dedupLoop_fresh : ∀ (l : List Dep) (st : DedupState),
    (∀ e ∈ l, lookupStr (depId e) st.directIdx = none ∧
              lookupStr (depId e) st.indirectIdx = none) →
    (l.map depId).Nodup →
    (dedupLoop st l).out = st.out ++ l := by
  intro l
  induction l with
  | nil =>
    intro st _ _
    simp [dedupLoop]
  | cons d ds ih =>
    intro st hfresh hnd
    obtain ⟨hd1, hd2⟩ := hfresh d (List.mem_cons_self d ds)
    rw [List.map_cons, List.nodup_cons] at hnd
    obtain ⟨hnmem, hnd2⟩ := hnd
    show (dedupLoop (dedupStep st d) ds).out = st.out ++ d :: ds
    cases hdi : d.indirect with
    | false =>
      have hstep : dedupStep st d =
          ⟨st.out ++ [d], (depId d, st.out.length) :: st.directIdx,
            st.indirectIdx⟩ := by
        unfold dedupStep
        rw [hd1, hd2]
        simp [hdi]
      rw [hstep]
      have hfresh2 : ∀ e ∈ ds,
          lookupStr (depId e)
            ((depId d, st.out.length) :: st.directIdx) = none ∧
          lookupStr (depId e) st.indirectIdx = none := by
        intro e he
        obtain ⟨he1, he2⟩ := hfresh e (List.mem_cons_of_mem d he)
        have hne : depId d ≠ depId e := fun hc =>
          hnmem (hc ▸ List.mem_map_of_mem depId he)
        exact ⟨by rw [lookupStr, if_neg hne]; exact he1, he2⟩
      rw [ih _ hfresh2 hnd2]
      simp
    | true =>
      have hstep : dedupStep st d =
          ⟨st.out ++ [d], st.directIdx,
            (depId d, st.out.length) :: st.indirectIdx⟩ := by
        unfold dedupStep
        rw [hd1, hd2]
        simp [hdi]
      rw [hstep]
      have hfresh2 : ∀ e ∈ ds,
          lookupStr (depId e) st.directIdx = none ∧
          lookupStr (depId e)
            ((depId d, st.out.length) :: st.indirectIdx) = none := by
        intro e he
        obtain ⟨he1, he2⟩ := hfresh e (List.mem_cons_of_mem d he)
        have hne : depId d ≠ depId e := fun hc =>
          hnmem (hc ▸ List.mem_map_of_mem depId he)
        exact ⟨he1, by rw [lookupStr, if_neg hne]; exact he2⟩
      rw [ih _ hfresh2 hnd2]
      simp

theorem dedupList_idem (deps : List Dep) :
    deduplicateDependenciesList (deduplicateDependenciesList deps) =
      deduplicateDependenciesList deps := by
  have hnd : ((deduplicateDependenciesList deps).map depId).Nodup := by
    rw [dedupList_map_depId]
    exact distinctIds_nodup deps
  have hfresh : ∀ e ∈ deduplicateDependenciesList deps,
      lookupStr (depId e)
        (DedupState.mk [] [] []).directIdx = none ∧
      lookupStr (depId e)
        (DedupState.mk [] [] []).indirectIdx = none :=
    fun e _ => ⟨rfl, rfl⟩
  have hrun := dedupLoop_fresh (deduplicateDependenciesList deps)
    ⟨[], [], []⟩ hfresh hnd
  show (dedupLoop ⟨[], [], []⟩ (deduplicateDependenciesList deps)).out =
    deduplicateDependenciesList deps
  rw [hrun]
  simp

/-- C9: dependency deduplication is idempotent: applying it to its own
output yields an identical per-file map. -/
theorem deduplicateDependencies_idempotent (m : List (String × List Dep)) :
    deduplicateDependencies (deduplicateDependencies m) =
      deduplicateDependencies m := by
  induction m with
  | nil => rfl
  | cons q rest ih =>
    obtain ⟨a, v⟩ := q
    simp only [deduplicateDependencies, List.map_cons] at ih ⊢
    rw [dedupList_idem, ih]

/-! ## Provider-configuration normalizer (spec section 4.2)

Modelled from the spec: `validateUpdateInternalProviderConfig` converts a
`map[interface]interface` raw configuration tree into a
`map[string]interface` canonical tree, recursing into nested maps,
failing with a key-type error on any non-string key, and building every
output map as a fresh allocation. The implementation is not among the
vendored sources (only provider_bugfix_test.go is), so it is modelled
word for word from spec section 4.2. Freshness of the output maps is made
observable by tagging every constructed output map with an allocation
counter value: distinct tags mean distinct maps, so mutating one cannot
affect another. -/

/-- Scalar leaf values (numbers, strings, booleans are opaque scalars to
the normalizer). -/
inductive ConfigScalar where
  | str : String → ConfigScalar
  | int : Int → ConfigScalar
  | bool : Bool → ConfigScalar
  deriving DecidableEq, Repr

/-- An untyped map key of the raw tree: either a string, or a key of some
other runtime type (carried as the name of that type). -/
inductive RawKey where
  | str : String → RawKey
  | other : String → RawKey
  deriving DecidableEq, Repr

mutual
inductive RawValue where
  | scalar : ConfigScalar → RawValue
  | table : RawMap → RawValue
inductive RawMap where
  | nil : RawMap
  | cons : RawKey → RawValue → RawMap → RawMap
end

mutual
inductive CanonValue where
  | scalar : ConfigScalar → CanonValue
  | table : Nat → CanonMap → CanonValue
inductive CanonMap where
  | nil : CanonMap
  | cons : String → CanonValue → CanonMap → CanonMap
end

/-- The one error class of the normalizer: a map key that is not
string-representable, tagged with the runtime type of the offending key. -/
inductive ConfigError where
  | keyTypeError : String → ConfigError
  deriving DecidableEq, Repr

mutual
/-- Modelled from the spec (section 4.2): normalize one raw value. A
scalar passes through; a nested raw map is normalized into its own new
output map (tagged with the next allocation counter value). -/
def normValue : RawValue → Nat → Except ConfigError (CanonValue × Nat)
  | .scalar s, n => .ok (.scalar s, n)
  | .table m, n =>
    match normMap m (n + 1) with
    | .error e => .error e
    | .ok (cm, n2) => .ok (.table n cm, n2)
/-- Modelled from the spec (section 4.2): normalize the entries of a raw
map depth-first. A non-string key aborts the whole normalization with a
key-type error and no partial tree. -/
def normMap : RawMap → Nat → Except ConfigError (CanonMap × Nat)
  | .nil, n => .ok (.nil, n)
  | .cons k v rest, n =>
    match k with
    | .other t => .error (.keyTypeError t)
    | .str s =>
      match normValue v n with
      | .error e => .error e
      | .ok (cv, n1) =>
        match normMap rest n1 with
        | .error e => .error e
        | .ok (cm, n2) => .ok (.cons s cv cm, n2)
end

/-- Modelled from the spec (section 4.2): the entry point normalizes the
top-level raw map into a fresh canonical map (the whole result tree is
the map tagged 0). -/
def validateUpdateInternalProviderConfig (old : RawMap) :
    Except ConfigError CanonValue :=
  match normValue (.table old) 0 with
  | .error e => .error e
  | .ok (c, _) => .ok c

mutual
/-- Every map key of the raw value, at every depth, is a string. -/
def allStringKeysV : RawValue → Bool
  | .scalar _ => true
  | .table m => allStringKeysM m
def allStringKeysM : RawMap → Bool
  | .nil => true
  | .cons k v rest =>
    (match k with | .str _ => true | .other _ => false)
      && allStringKeysV v && allStringKeysM rest
end

mutual
/-- Erase the allocation tags, turning a canonical tree back into the raw
tree it denotes: equality with the input states that the output has
exactly the input's keys and values at every depth. -/
def stripIdsV : CanonValue → RawValue
  | .scalar s => .scalar s
  | .table _ m => .table (stripIdsM m)
def stripIdsM : CanonMap → RawMap
  | .nil => .nil
  | .cons s v rest => .cons (.str s) (stripIdsV v) (stripIdsM rest)
end

mutual
/-- The allocation tags of every output map in the tree. -/
def mapIdsV : CanonValue → List Nat
  | .scalar _ => []
  | .table i m => i :: mapIdsM m
def mapIdsM : CanonMap → List Nat
  | .nil => []
  | .cons _ v rest => mapIdsV v ++ mapIdsM rest
end

theorem normValue_scalar_eq (s : ConfigScalar) (n : Nat) :
    normValue (.scalar s) n = .ok (.scalar s, n) := by
  simp [normValue]

theorem normValue_table_eq (m : RawMap) (n : Nat) :
    normValue (.table m) n =
      match normMap m (n + 1) with
      | .error e => .error e
      | .ok (cm, n2) => .ok (.table n cm, n2) := by
  simp [normValue]

theorem normMap_nil_eq (n : Nat) : normMap .nil n = .ok (.nil, n) := by
  simp [normMap]

theorem normMap_cons_str_eq (s : String) (v : RawValue) (rest : RawMap)
    (n : Nat) :
    normMap (.cons (.str s) v rest) n =
      match normValue v n with
      | .error e => .error e
      | .ok (cv, n1) =>
        match normMap rest n1 with
        | .error e => .error e
        | .ok (cm, n2) => .ok (.cons s cv cm, n2) := by
  simp [normMap]

theorem normMap_cons_other_eq (t : String) (v : RawValue) (rest : RawMap)
    (n : Nat) :
    normMap (.cons (.other t) v rest) n = .error (.keyTypeError t) := by
  simp [normMap]

mutual
theorem normValue_ok : ∀ (v : RawValue) (n : Nat),
    allStringKeysV v = true →
    ∃ c n2, normValue v n = .ok (c, n2) ∧ stripIdsV c = v
  | .scalar s, n, _ => ⟨.scalar s, n, normValue_scalar_eq s n, rfl⟩
  | .table m, n, h => by
    obtain ⟨cm, n2, hok, hstrip⟩ :=
      normMap_ok m (n + 1) (by simpa [allStringKeysV] using h)
    refine ⟨.table n cm, n2, ?_, ?_⟩
    · rw [normValue_table_eq, hok]
    · simp [stripIdsV, hstrip]
theorem normMap_ok : ∀ (m : RawMap) (n : Nat),
    allStringKeysM m = true →
    ∃ cm n2, normMap m n = .ok (cm, n2) ∧ stripIdsM cm = m
  | .nil, n, _ => ⟨.nil, n, normMap_nil_eq n, rfl⟩
  | .cons k v rest, n, h => by
    cases k with
    | other t => simp [allStringKeysM] at h
    | str s =>
      have hv : allStringKeysV v = true := by
        simp [allStringKeysM] at h
        exact h.1
      have hr : allStringKeysM rest = true := by
        simp [allStringKeysM] at h
        exact h.2
      obtain ⟨cv, n1, hokv, hstripv⟩ := normValue_ok v n hv
      obtain ⟨cm, n2, hokm, hstripm⟩ := normMap_ok rest n1 hr
      refine ⟨.cons s cv cm, n2, ?_, ?_⟩
      · simp [normMap_cons_str_eq, hokv, hokm]
      · simp [stripIdsM, hstripv, hstripm]
end

mutual
theorem normValue_fresh : ∀ (v : RawValue) (n : Nat) (c : CanonValue)
    (n2 : Nat), normValue v n = .ok (c, n2) →
    n ≤ n2 ∧ (∀ i ∈ mapIdsV c, n ≤ i ∧ i < n2) ∧ (mapIdsV c).Nodup
  | .scalar s, n, c, n2, h => by
    rw [normValue_scalar_eq] at h
    injection h with h1
    injection h1 with hc hn
    subst hc
    subst hn
    refine ⟨Nat.le_refl n, ?_, ?_⟩
    · intro i hi
      simp [mapIdsV] at hi
    · simp [mapIdsV]
  | .table m, n, c, n2, h => by
    rw [normValue_table_eq] at h
    cases hm : normMap m (n + 1) with
    | error e =>
      rw [hm] at h
      exact Except.noConfusion h
    | ok q =>
      obtain ⟨cm, n3⟩ := q
      rw [hm] at h
      injection h with h1
      injection h1 with hc hn
      subst hc
      subst hn
      obtain ⟨hle, hbounds, hnd⟩ := normMap_fresh m (n + 1) cm n3 hm
      refine ⟨by omega, ?_, ?_⟩
      · intro i hi
        simp only [mapIdsV, List.mem_cons] at hi
        rcases hi with rfl | hi2
        · omega
        · have := hbounds i hi2
          omega
      · simp only [mapIdsV, List.nodup_cons]
        refine ⟨?_, hnd⟩
        intro hc2
        have := hbounds n hc2
        omega
theorem normMap_fresh : ∀ (m : RawMap) (n : Nat) (cm : CanonMap) (n2 : Nat),
    normMap m n = .ok (cm, n2) →
    n ≤ n2 ∧ (∀ i ∈ mapIdsM cm, n ≤ i ∧ i < n2) ∧ (mapIdsM cm).Nodup
  | .nil, n, cm, n2, h => by
    rw [normMap_nil_eq] at h
    injection h with h1
    injection h1 with hc hn
    subst hc
    subst hn
    refine ⟨Nat.le_refl n, ?_, ?_⟩
    · intro i hi
      simp [mapIdsM] at hi
    · simp [mapIdsM]
  | .cons k v rest, n, cm, n2, h => by
    cases k with
    | other t =>
      rw [normMap_cons_other_eq] at h
      exact Except.noConfusion h
    | str s =>
      rw [normMap_cons_str_eq] at h
      cases hv : normValue v n with
      | error e =>
        rw [hv] at h
        exact Except.noConfusion h
      | ok q1 =>
        obtain ⟨cv, n1⟩ := q1
        rw [hv] at h
        cases hr : normMap rest n1 with
        | error e =>
          simp only [hr] at h
          exact Except.noConfusion h
        | ok q2 =>
          obtain ⟨cm2, n3⟩ := q2
          simp only [hr] at h
          injection h with h1
          injection h1 with hc hn
          subst hc
          subst hn
          obtain ⟨hle1, hb1, hnd1⟩ := normValue_fresh v n cv n1 hv
          obtain ⟨hle2, hb2, hnd2⟩ := normMap_fresh rest n1 cm2 n3 hr
          refine ⟨by omega, ?_, ?_⟩
          · intro i hi
            simp only [mapIdsM, List.mem_append] at hi
            rcases hi with hi1 | hi2
            · have := hb1 i hi1
              omega
            · have := hb2 i hi2
              omega
          · simp only [mapIdsM]
            rw [List.nodup_append]
            refine ⟨hnd1, hnd2, ?_⟩
            intro a ha1 ha2
            have := hb1 a ha1
            have := hb2 a ha2
            omega
end

mutual
theorem normValue_err : ∀ (v : RawValue) (n : Nat),
    allStringKeysV v = false →
    ∃ t, normValue v n = .error (.keyTypeError t)
  | .scalar s, n, h => by
    simp [allStringKeysV] at h
  | .table m, n, h => by
    obtain ⟨t, ht⟩ :=
      normMap_err m (n + 1) (by simpa [allStringKeysV] using h)
    exact ⟨t, by simp [normValue_table_eq, ht]⟩
theorem normMap_err : ∀ (m : RawMap) (n : Nat),
    allStringKeysM m = false →
    ∃ t, normMap m n = .error (.keyTypeError t)
  | .nil, n, h => by
    simp [allStringKeysM] at h
  | .cons k v rest, n, h => by
    cases k with
    | other t => exact ⟨t, normMap_cons_other_eq t v rest n⟩
    | str s =>
      cases hv : allStringKeysV v with
      | false =>
        obtain ⟨t, ht⟩ := normValue_err v n hv
        exact ⟨t, by simp [normMap_cons_str_eq, ht]⟩
      | true =>
        have hr : allStringKeysM rest = false := by
          simp [allStringKeysM, hv] at h
          exact h
        obtain ⟨cv, n1, hokv, -⟩ := normValue_ok v n hv
        obtain ⟨t, ht⟩ := normMap_err rest n1 hr
        exact ⟨t, by simp [normMap_cons_str_eq, hokv, ht]⟩
end

/-- C2: for every raw configuration tree whose map keys at every depth are
strings, normalization succeeds and produces a tree with exactly the same
keys and values at every depth, in which every output map carries a
distinct allocation tag, so no two positions of the output share a map
and mutating one nested output map cannot change any other. -/
theorem validateUpdateInternalProviderConfig_ok (old : RawMap)
    (h : allStringKeysM old = true) :
    ∃ c, validateUpdateInternalProviderConfig old = .ok c ∧
      stripIdsV c = .table old ∧ (mapIdsV c).Nodup := by
  obtain ⟨c, n2, hok, hstrip⟩ :=
    normValue_ok (.table old) 0 (by simpa [allStringKeysV] using h)
  obtain ⟨-, -, hnd⟩ := normValue_fresh (.table old) 0 c n2 hok
  exact ⟨c, by simp [validateUpdateInternalProviderConfig, hok],
    hstrip, hnd⟩

/-- C4: for every raw configuration tree containing a non-string key at
any depth, normalization fails with a key-type error and returns no
partial normalized tree (the result carries no tree at all). -/
theorem validateUpdateInternalProviderConfig_err (old : RawMap)
    (h : allStringKeysM old = false) :
    ∃ t, validateUpdateInternalProviderConfig old =
      .error (.keyTypeError t) := by
  obtain ⟨t, ht⟩ :=
    normValue_err (.table old) 0 (by simpa [allStringKeysV] using h)
  exact ⟨t, by simp [validateUpdateInternalProviderConfig, ht]⟩

/-- The nested configuration of
TestValidateUpdateInternalProviderConfig_NestedMap. -/
def exampleRawConfig : RawMap :=
  .cons (.str "name") (.scalar (.str "my-provider"))
    (.cons (.str "database")
      (.table (.cons (.str "host") (.scalar (.str "localhost"))
        (.cons (.str "port") (.scalar (.int 5432)) .nil)))
      .nil)

/-- A raw configuration with a non-string (integer-typed) key. -/
def exampleBadConfig : RawMap :=
  .cons (.other "int") (.scalar (.int 1)) .nil

/-- Witness for C2 at the nested-map test configuration. -/
theorem validateUpdateInternalProviderConfig_ok_witness :
    allStringKeysM exampleRawConfig = true ∧
    ∃ c, validateUpdateInternalProviderConfig exampleRawConfig = .ok c ∧
      stripIdsV c = .table exampleRawConfig ∧ (mapIdsV c).Nodup :=
  ⟨rfl, validateUpdateInternalProviderConfig_ok exampleRawConfig rfl⟩

/-- Witness for C4 at a configuration with an integer-typed key. -/
theorem validateUpdateInternalProviderConfig_err_witness :
    allStringKeysM exampleBadConfig = false ∧
    ∃ t, validateUpdateInternalProviderConfig exampleBadConfig =
      .error (.keyTypeError t) :=
  ⟨rfl, validateUpdateInternalProviderConfig_err exampleBadConfig rfl⟩

/-! ## Tree-sitter service client (service_client.go)

Embedding of the tree-sitter reference capability provider. External
collaborators (the tree-sitter parsing and query library, the file
system visited by filepath.Walk, and the yaml decoder) are modelled as
oracles passed in explicitly; the session fields mirror the
TreeSitterServiceClient struct. Positions are machine unsigned counts in
the source (stored into float64 fields); they are modelled as Nat. -/

/-- Opaque compiled-grammar handle (tree_sitter.Language). -/
structure Language where
  name : String
  deriving DecidableEq, Repr

/-- One capture produced by the query cursor: the start and end
(row, column) of the captured node. -/
structure TSMatch where
  startRow : Nat
  startCol : Nat
  endRow : Nat
  endCol : Nat
  deriving DecidableEq, Repr

/-- The external tree-sitter engine: query compilation for a grammar
(`newQueryErr lang q = some msg` when tree_sitter.NewQuery fails), and
the captures obtained by parsing a file content with the grammar and
running the compiled query over the tree. -/
structure TreeSitterEngine where
  newQueryErr : Language → String → Option String
  captures : Language → String → String → List TSMatch

/-- One entry delivered to the filepath.Walk callback, in visit order:
its path, whether it is a directory, the walk error handed to the
callback for it (if any), and the result of os.ReadFile on it. -/
structure FSEntry where
  path : String
  isDir : Bool
  walkErr : Option String
  readErr : Option String
  content : String
  deriving DecidableEq, Repr

/-- Zero-based position (provider.Position). -/
structure Position where
  line : Nat
  character : Nat
  deriving DecidableEq, Repr

/-- provider.Location. -/
structure Location where
  startPosition : Position
  endPosition : Position
  deriving DecidableEq, Repr

/-- provider.IncidentContext as built by EvaluateQuery: file URI, an
optional code location, and the (here always empty) variable bindings
(the Variables field of the source). -/
structure IncidentContext where
  fileURI : String
  codeLocation : Option Location
  vars : List (String × String)
  deriving DecidableEq, Repr

/-- provider.ProviderEvaluateResponse; its Go zero value is
matched = false with no incidents. -/
structure ProviderEvaluateResponse where
  matched : Bool
  incidents : List IncidentContext
  deriving DecidableEq, Repr

/-- The TreeSitterServiceClient session state: workspace location, the
grammar table and extension table populated at Init, and the two caches
declared on the struct (the cache-maintenance code in the walk body is
commented out in the source, and node handles are opaque, so cache
entries are modelled as opaque tags). -/
structure TreeSitterServiceClient where
  location : String
  treeSitterLanguages : List (String × Language)
  extMap : List (String × String)
  nodeCache : List (String × String)
  lastModified : List (String × Nat)

/-- The cancellation state of the context handed to an evaluator. The
EvaluateQuery body never consults its ctx parameter. -/
structure EvalContext where
  canceled : Bool
  deriving DecidableEq, Repr

/-- The decoded query condition (queryCondition.Query). -/
structure QueryConditionInner where
  language : String
  query : String
  deriving DecidableEq, Repr

/-- queryCondition: the condition payload shape of the query capability. -/
structure QueryCondition where
  query : QueryConditionInner
  deriving DecidableEq, Repr

/-- filepath.Ext: the suffix of the final path element starting at its
final dot, empty when there is none. Scans the reversed character list. -/
def extOfRev (acc : List Char) : List Char → String
  | [] => ""
  | c :: rest =>
    if c = '.' then String.mk ('.' :: acc)
    else if c = '/' then ""
    else extOfRev (c :: acc) rest

def filepathExt (path : String) : String :=
  extOfRev [] path.data.reverse

/-- The filepath.Walk callback body of EvaluateQuery, per visited entry.
`Except.error e` models the callback returning a non-nil error (aborting
the walk); `Except.ok incs` models a nil return, contributing `incs` to
the accumulated incident slice. Note the source bug on query-compilation
failure: the code tests `queryErr != nil` but executes `return err`, and
`err` is nil at that point (the ReadFile error was already handled), so
the callback returns nil and the file is silently skipped. -/
def queryWalkFn (engine : TreeSitterEngine) (sc : TreeSitterServiceClient)
    (tsLanguage : Language) (lang : String) (queryStr : String)
    (entry : FSEntry) : Except String (List IncidentContext) :=
  match entry.walkErr with
  | some e => .error e
  | none =>
    if entry.isDir then .ok []
    else
      match lookupStr lang sc.extMap with
      | none => .ok []
      | some ext =>
        if filepathExt entry.path ≠ ext then .ok []
        else
          match entry.readErr with
          | some e => .error e
          | none =>
            match engine.newQueryErr tsLanguage queryStr with
            | some _ => .ok []
            | none =>
              .ok ((engine.captures tsLanguage queryStr
                  entry.content).map (fun mt =>
                { fileURI := "file://" ++ entry.path
                  codeLocation := some
                    { startPosition :=
                        { line := mt.startRow, character := mt.startCol }
                      endPosition :=
                        { line := mt.endRow, character := mt.endCol } }
                  vars := [] }))

/-- filepath.Walk: visit the entries in order, accumulating the incident
slice; a non-nil callback return aborts the walk with that error. -/
def runWalk (f : FSEntry → Except String (List IncidentContext)) :
    List FSEntry → List IncidentContext →
    Except String (List IncidentContext)
  | [], acc => .ok acc
  | e :: rest, acc =>
    match f e with
    | .error err => .error err
    | .ok incs => runWalk f rest (acc ++ incs)

/-- EvaluateQuery, translated from service_client.go lines 225-333. The
yaml decode of the info bytes is modelled by its outcome `info`; the file
system below sc.Location is modelled by the oracle `fs` giving the walk
order. The returned pair carries the evaluation result together with the
receiver state after the call (the body contains no write to any receiver
field; the cache updates are commented out in the source). -/
def EvaluateQuery (engine : TreeSitterEngine)
    (fs : String → List FSEntry) (sc : TreeSitterServiceClient)
    (ctx : EvalContext) (capName : String)
    (info : Except String QueryCondition) :
    Except String ProviderEvaluateResponse × TreeSitterServiceClient :=
  match info with
  | .error e => (.error ("error unmarshaling query info: " ++ e), sc)
  | .ok cond =>
    match lookupStr cond.query.language sc.treeSitterLanguages with
    | none => (.error "language not supported", sc)
    | some tsLanguage =>
      match runWalk
          (queryWalkFn engine sc tsLanguage cond.query.language
            cond.query.query)
          (fs sc.location) [] with
      | .error e => (.error e, sc)
      | .ok incidents =>
        if incidents.length > 0 then
          (.ok { matched := true, incidents := incidents }, sc)
        else
          (.ok { matched := false, incidents := [] }, sc)

/-! ## Capability registry construction (GetGenericServiceClientCapabilities,
service_client.go lines 143-188) -/

/-- A provider capability descriptor (provider.Capability), opaque here. -/
structure ProviderCapability where
  name : String
  deriving DecidableEq, Repr

/-- base.LSPServiceClientCapability: the capability descriptor paired with
the evaluator function bound for it (identified by name). -/
structure LSPServiceClientCapability where
  capability : ProviderCapability
  fn : String
  deriving DecidableEq, Repr

/-- GetGenericServiceClientCapabilities, translated from
service_client.go: the four ToProviderCap constructor outcomes (for the
referenced, dependency, echo and query capabilities) are inputs; on a
constructor error the capability is logged and skipped and construction
continues, otherwise the capability is appended with its evaluator. -/
def GetGenericServiceClientCapabilities
    (refCap depCap echoCap queryCap : Except String ProviderCapability) :
    List LSPServiceClientCapability :=
  let caps : List LSPServiceClientCapability := []
  let caps := match refCap with
    | .error _ => caps
    | .ok c => caps ++ [{ capability := c, fn := "EvaluateReferenced" }]
  let caps := match depCap with
    | .error _ => caps
    | .ok c => caps ++ [{ capability := c, fn := "EvaluateNoOp" }]
  let caps := match echoCap with
    | .error _ => caps
    | .ok c => caps ++ [{ capability := c, fn := "EvaluateEcho" }]
  match queryCap with
  | .error _ => caps
  | .ok c => caps ++ [{ capability := c, fn := "EvaluateQuery" }]

/-- C8: during capability registry construction, a failure of any single
capability constructor causes only that capability to be omitted;
construction continues and every remaining capability in the fixed list
(referenced, dependency, echo, query) is still registered, in order. -/
theorem capability_registration_isolated
    (c1 c2 c3 : ProviderCapability) (msg : String) :
    (GetGenericServiceClientCapabilities (.error msg) (.ok c1) (.ok c2)
        (.ok c3) =
      [{ capability := c1, fn := "EvaluateNoOp" },
       { capability := c2, fn := "EvaluateEcho" },
       { capability := c3, fn := "EvaluateQuery" }]) ∧
    (GetGenericServiceClientCapabilities (.ok c1) (.error msg) (.ok c2)
        (.ok c3) =
      [{ capability := c1, fn := "EvaluateReferenced" },
       { capability := c2, fn := "EvaluateEcho" },
       { capability := c3, fn := "EvaluateQuery" }]) ∧
    (GetGenericServiceClientCapabilities (.ok c1) (.ok c2) (.error msg)
        (.ok c3) =
      [{ capability := c1, fn := "EvaluateReferenced" },
       { capability := c2, fn := "EvaluateNoOp" },
       { capability := c3, fn := "EvaluateQuery" }]) ∧
    (GetGenericServiceClientCapabilities (.ok c1) (.ok c2) (.ok c3)
        (.error msg) =
      [{ capability := c1, fn := "EvaluateReferenced" },
       { capability := c2, fn := "EvaluateNoOp" },
       { capability := c3, fn := "EvaluateEcho" }]) :=
  ⟨rfl, rfl, rfl, rfl⟩

/-! ## Claims about EvaluateQuery -/

/-- C7: for every invocation whose decoded condition names a language
with no registered grammar or extension mapping in the session, the
evaluator fails with the unsupported-language error, not a success
response. -/
theorem evaluateQuery_unsupported_language
    (engine : TreeSitterEngine) (fs : String → List FSEntry)
    (sc : TreeSitterServiceClient) (ctx : EvalContext) (capName : String)
    (cond : QueryCondition)
    (hg : lookupStr cond.query.language sc.treeSitterLanguages = none)
    (he : lookupStr cond.query.language sc.extMap = none) :
    (EvaluateQuery engine fs sc ctx capName (.ok cond)).1 =
      .error "language not supported" := by
  simp [EvaluateQuery, hg]

/-- C6: for every evaluation where the decode, language lookup and file
walk succeed, the response is matched = true with the accumulated
incidents when the walk found at least one match, and otherwise
matched = false with no incidents and no error. -/
theorem evaluateQuery_success_response
    (engine : TreeSitterEngine) (fs : String → List FSEntry)
    (sc : TreeSitterServiceClient) (ctx : EvalContext) (capName : String)
    (cond : QueryCondition) (tsLanguage : Language)
    (incs : List IncidentContext)
    (hl : lookupStr cond.query.language sc.treeSitterLanguages =
      some tsLanguage)
    (hw : runWalk
        (queryWalkFn engine sc tsLanguage cond.query.language
          cond.query.query)
        (fs sc.location) [] = .ok incs) :
    (EvaluateQuery engine fs sc ctx capName (.ok cond)).1 =
      (if 0 < incs.length then
        .ok { matched := true, incidents := incs }
      else
        .ok { matched := false, incidents := [] }) := by
  simp only [EvaluateQuery, hl, hw]
  split <;> rfl

/-- C10: EvaluateQuery never mutates the session state: the receiver
after the call is the input receiver (grammar table, extension table and
both caches included), and the evaluation result does not depend on the
contents of the NodeCache and LastModified caches, which are never
consulted. -/
theorem evaluateQuery_result_only_reads_tables
    (engine : TreeSitterEngine) (fs : String → List FSEntry)
    (sc1 sc2 : TreeSitterServiceClient) (ctx : EvalContext)
    (capName : String) (info : Except String QueryCondition)
    (h1 : sc1.location = sc2.location)
    (h2 : sc1.treeSitterLanguages = sc2.treeSitterLanguages)
    (h3 : sc1.extMap = sc2.extMap) :
    (EvaluateQuery engine fs sc1 ctx capName info).1 =
      (EvaluateQuery engine fs sc2 ctx capName info).1 := by
  have hwalk : queryWalkFn engine sc1 = queryWalkFn engine sc2 := by
    funext tsLanguage lang queryStr entry
    simp only [queryWalkFn, h3]
  cases info with
  | error e => rfl
  | ok cond =>
    simp only [EvaluateQuery, h1, h2, hwalk]
    split
    · rfl
    · split
      · rfl
      · split <;> rfl

theorem evaluateQuery_preserves_session
    (engine : TreeSitterEngine) (fs : String → List FSEntry)
    (sc : TreeSitterServiceClient) (ctx : EvalContext) (capName : String)
    (info : Except String QueryCondition) :
    (EvaluateQuery engine fs sc ctx capName info).2 = sc ∧
    ∀ nc lm,
      (EvaluateQuery engine fs
        { sc with nodeCache := nc, lastModified := lm } ctx capName
        info).1 =
      (EvaluateQuery engine fs sc ctx capName info).1 := by
  constructor
  · cases info with
    | error e => rfl
    | ok cond =>
      simp only [EvaluateQuery]
      split
      · rfl
      · split
        · rfl
        · split <;> rfl
  · intro nc lm
    exact evaluateQuery_result_only_reads_tables engine fs _ sc ctx
      capName info rfl rfl rfl

/-- C5 (amended): EvaluateQuery never consults the cancellation context:
evaluating with any two context states yields identical results, so a
canceled context neither stops the walk nor changes the response. -/
theorem evaluateQuery_ignores_context
    (engine : TreeSitterEngine) (fs : String → List FSEntry)
    (sc : TreeSitterServiceClient) (c1 c2 : EvalContext)
    (capName : String) (info : Except String QueryCondition) :
    EvaluateQuery engine fs sc c1 capName info =
      EvaluateQuery engine fs sc c2 capName info := rfl

/-! ### Concrete fixtures for the EvaluateQuery claims -/

def javaLang : Language := { name := "java" }

/-- The session tables exactly as populated by Init
(service_client.go lines 130-138). -/
def testClient : TreeSitterServiceClient :=
  { location := "/workspace"
    treeSitterLanguages := [("java", javaLang)]
    extMap := [("java", ".java")]
    nodeCache := []
    lastModified := [] }

/-- An engine whose query compiles and yields one capture per file. -/
def testEngine : TreeSitterEngine :=
  { newQueryErr := fun _ _ => none
    captures := fun _ _ _ =>
      [{ startRow := 1, startCol := 2, endRow := 3, endCol := 4 }] }

/-- A workspace holding a single readable java file. -/
def testFS : String → List FSEntry :=
  fun _ =>
    [{ path := "/workspace/A.java", isDir := false, walkErr := none,
       readErr := none, content := "class A" }]

def testCond : QueryCondition :=
  { query := { language := "java", query := "(class_declaration) @c" } }

def testIncidents : List IncidentContext :=
  [{ fileURI := "file:///workspace/A.java"
     codeLocation := some
       { startPosition := { line := 1, character := 2 }
         endPosition := { line := 3, character := 4 } }
     vars := [] }]

/-- Witness for C6: on the one-java-file workspace the walk accumulates
one incident and the response is matched = true with exactly it. -/
theorem evaluateQuery_success_response_witness :
    lookupStr "java" testClient.treeSitterLanguages = some javaLang ∧
    runWalk
      (queryWalkFn testEngine testClient javaLang "java"
        "(class_declaration) @c")
      (testFS testClient.location) [] = .ok testIncidents ∧
    (EvaluateQuery testEngine testFS testClient { canceled := false }
      "query" (.ok testCond)).1 =
      .ok { matched := true, incidents := testIncidents } :=
  ⟨rfl, rfl, by
    rw [evaluateQuery_success_response testEngine testFS testClient
      { canceled := false } "query" testCond javaLang testIncidents rfl
      rfl]
    rfl⟩

/-- Witness for C7: the unregistered language go is rejected. -/
theorem evaluateQuery_unsupported_language_witness :
    lookupStr "go" testClient.treeSitterLanguages = none ∧
    lookupStr "go" testClient.extMap = none ∧
    (EvaluateQuery testEngine testFS testClient { canceled := false }
      "query"
      (.ok { query := { language := "go", query := "(q)" } })).1 =
      .error "language not supported" :=
  ⟨rfl, rfl,
    evaluateQuery_unsupported_language testEngine testFS testClient
      { canceled := false } "query"
      { query := { language := "go", query := "(q)" } } rfl rfl⟩

/-- C5 counterexample: with the context already canceled, EvaluateQuery
still walks the workspace and returns a success response, not a
Canceled error: the claim that a canceled context stops the walk and
yields a Canceled error is false on this code. -/
theorem evaluateQuery_canceled_returns_success :
    (EvaluateQuery testEngine testFS testClient { canceled := true }
      "query" (.ok testCond)).1 =
      .ok { matched := true, incidents := testIncidents } ∧
    ∀ e, (EvaluateQuery testEngine testFS testClient { canceled := true }
      "query" (.ok testCond)).1 ≠ .error e :=
  ⟨rfl, fun _ h => Except.noConfusion h⟩

/-- An engine on which compiling the rule-authored query always fails. -/
def badQueryEngine : TreeSitterEngine :=
  { newQueryErr := fun _ _ => some "query compile error: invalid syntax"
    captures := fun _ _ _ =>
      [{ startRow := 0, startCol := 0, endRow := 0, endCol := 1 }] }

/-- C3, evidence of the code bug at service_client.go lines 283-287: the
walk callback tests queryErr but executes return err, and err is nil
there (the ReadFile error was already handled), so a failing query
compilation on a readable matching file is silently skipped: the
evaluation completes as a no-match success instead of aborting with the
underlying compile error. -/
theorem evaluateQuery_compile_error_swallowed :
    badQueryEngine.newQueryErr javaLang testCond.query.query =
      some "query compile error: invalid syntax" ∧
    (EvaluateQuery badQueryEngine testFS testClient { canceled := false }
      "query" (.ok testCond)).1 =
      .ok { matched := false, incidents := [] } :=
  ⟨rfl, rfl⟩

end AnalyzerLsp
